import Mathlib

/-!
Verification of the `envvar` environment-configuration library.

This file gives a shallow embedding of the library's core:
  * the string utilities of `binders/binders.go` (`SplitAndTrim`,
    `ParseBoolValue`),
  * the `${NAME}` / `${NAME:-default}` expander of `internal/expand.go`
    together with the Go standard-library `os.Expand` pass it delegates to,
  * the tag-driven struct binder `bindWithOptions` of `binders/binders.go`,
  * the rule validator (`ValidateField`, `checkMin`, `checkMax`,
    `checkOneOf`) of the `validate` package,
  * the redacting environment dump `DumpRedacted`.

Strings are modelled as `List Char`; the Go code indexes byte offsets, which
coincide with character offsets on the ASCII data all of these functions
manipulate.  The process environment is modelled as an explicit lookup
function `String → Option String` (for `os.LookupEnv`) or an explicit
association list (for `os.Environ`).
-/

namespace Envvar

/-! ### Go string primitives -/

/-- Model of `List.isPrefixOf` specialised test used below: first index (if any) at
which `pat` occurs as a contiguous substring of `s`.  Models Go
`strings.Index` (byte offsets coincide with character offsets on the ASCII
inputs involved). -/
def indexOfSubstr (s pat : List Char) : Option Nat :=
  if pat.isPrefixOf s then some 0
  else
    match s with
    | [] => none
    | _ :: t => (indexOfSubstr t pat).map (· + 1)

/-- Models Go `strings.Cut(s, pat)`: splits at the first occurrence of
`pat`, returning `(before, after, found)`. -/
def goCut (s pat : List Char) : List Char × List Char × Bool :=
  match indexOfSubstr s pat with
  | some i => (s.take i, s.drop (i + pat.length), true)
  | none => (s, [], false)

/-- Cutting loop of Go `strings.Split` for non-empty `sep`.  The fuel is
only a structural-recursion device: each round consumes at least
`sep.length ≥ 1` characters, so `s.length + 1` rounds always suffice. -/
def goSplitAux : Nat → List Char → List Char → List (List Char)
  | 0, s, _ => [s]
  | fuel + 1, s, sep =>
    match indexOfSubstr s sep with
    | none => [s]
    | some i => s.take i :: goSplitAux fuel (s.drop (i + sep.length)) sep

/-- Models Go `strings.Split(s, sep)`: for empty `sep` the string explodes
into its characters, otherwise it is cut at each occurrence of `sep`. -/
def goSplit (s sep : List Char) : List (List Char) :=
  match sep with
  | [] => s.map (fun c => [c])
  | _ :: _ => goSplitAux (s.length + 1) s sep

/-- Models Go `unicode.IsSpace` (the Unicode `White_Space` property). -/
def goIsSpace (c : Char) : Bool :=
  (9 ≤ c.val && c.val ≤ 13) || c.val = 32 || c.val = 0x85 || c.val = 0xA0 ||
  c.val = 0x1680 || (0x2000 ≤ c.val && c.val ≤ 0x200A) ||
  c.val = 0x2028 || c.val = 0x2029 || c.val = 0x202F || c.val = 0x205F ||
  c.val = 0x3000

/-- Models Go `strings.TrimSpace`: drop `White_Space` characters from both
ends. -/
def trimSpace (l : List Char) : List Char :=
  ((l.dropWhile goIsSpace).reverse.dropWhile goIsSpace).reverse

/-- Model of `SplitAndTrim` from `binders/binders.go`: split on `sep`, trim each
part, append the non-empty ones in order. -/
def splitAndTrimLoop : List (List Char) → List (List Char)
  | [] => []
  | p :: rest =>
    let p' := trimSpace p
    if p' = [] then splitAndTrimLoop rest else p' :: splitAndTrimLoop rest

/-- Model of `SplitAndTrim(s, sep)` from `binders/binders.go`. -/
def SplitAndTrim (s sep : String) : List String :=
  (splitAndTrimLoop (goSplit s.data sep.data)).map (fun l => ⟨l⟩)

/-! ### Value conversion primitives -/

/-- Model of `ParseBoolValue` from `binders/binders.go`: trim, lower-case, then match
the fixed boolean vocabulary.  `none` models the Go error return. -/
def ParseBoolValue (v : String) : Option Bool :=
  let s := (trimSpace v.data).map Char.toLower
  if s = "1".data ∨ s = "t".data ∨ s = "true".data ∨ s = "y".data ∨
      s = "yes".data ∨ s = "on".data then some true
  else if s = "0".data ∨ s = "f".data ∨ s = "false".data ∨ s = "n".data ∨
      s = "no".data ∨ s = "off".data then some false
  else none

/-- Decimal digit run: `none` when the run is empty or contains a
non-digit. -/
def digitsToNat : List Char → Option Nat
  | [] => none
  | l =>
    if l.all Char.isDigit then
      some (l.foldl (fun n c => n * 10 + (c.toNat - 48)) 0)
    else none

/-- Models Go `strconv.ParseInt(s, 10, bits)`: optional sign, non-empty
decimal digits, value bounded to the signed width. -/
def goParseInt (s : List Char) (bits : Nat) : Option Int :=
  let signed : Bool × List Char :=
    match s with
    | '+' :: rest => (false, rest)
    | '-' :: rest => (true, rest)
    | _ => (false, s)
  match digitsToNat signed.2 with
  | none => none
  | some n =>
    let v : Int := if signed.1 then -(n : Int) else (n : Int)
    if -(2 ^ (bits - 1) : Int) ≤ v ∧ v ≤ 2 ^ (bits - 1) - 1 then some v
    else none

/-- Models Go `strconv.ParseUint(s, 10, bits)`: no sign permitted, value
bounded to the unsigned width. -/
def goParseUint (s : List Char) (bits : Nat) : Option Nat :=
  match digitsToNat s with
  | none => none
  | some n => if n ≤ 2 ^ bits - 1 then some n else none

/-! ### Go `time.ParseDuration` -/

/-- The unit table of Go `time.ParseDuration`, in nanoseconds. -/
def durUnitNs (u : List Char) : Option Nat :=
  if u = "ns".data then some 1
  else if u = "us".data then some 1000
  else if u = "µs".data then some 1000
  else if u = "μs".data then some 1000
  else if u = "ms".data then some 1000000
  else if u = "s".data then some 1000000000
  else if u = "m".data then some 60000000000
  else if u = "h".data then some 3600000000000
  else none

/-- Go `leadingInt`: consume leading decimal digits; `none` on int64
overflow of the accumulated value. -/
def leadingIntAux : Nat → List Char → Option (Nat × List Char)
  | x, [] => some (x, [])
  | x, c :: rest =>
    if c.isDigit then
      let y := x * 10 + (c.toNat - 48)
      if y > 2 ^ 63 - 1 then none else leadingIntAux y rest
    else some (x, c :: rest)

/-- Go `leadingFraction`: consume post-decimal digits, tracking the scale;
once the accumulator would overflow, further digits are consumed but
ignored. -/
def leadingFractionAux : Nat → Nat → Bool → List Char → Nat × Nat × List Char
  | x, scale, _, [] => (x, scale, [])
  | x, scale, overflow, c :: rest =>
    if c.isDigit then
      if overflow then leadingFractionAux x scale true rest
      else if x > (2 ^ 63 - 1) / 10 then leadingFractionAux x scale true rest
      else
        let y := x * 10 + (c.toNat - 48)
        if y > 2 ^ 63 then leadingFractionAux x scale true rest
        else leadingFractionAux y (scale * 10) false rest
    else (x, scale, c :: rest)

/-- One `(number (.fraction)? unit)+` loop of Go `time.ParseDuration`,
accumulating nanoseconds.  The fuel is a structural-recursion device: every
round consumes at least the one-character unit, so `s.length + 1` rounds
suffice.  The fractional contribution is computed exactly as
`f * unit / scale`; Go computes it in `float64`, which agrees on all
magnitudes a 64-bit duration can hold in practice. -/
def parseDurationLoop : Nat → Nat → List Char → Option Nat
  | _, d, [] => some d
  | 0, _, _ => none
  | fuel + 1, d, c0 :: srest =>
    if ¬ (c0 = '.' ∨ c0.isDigit) then none
    else
      let s := c0 :: srest
      match leadingIntAux 0 s with
      | none => none
      | some (v, s1) =>
        let pre : Bool := s1.length ≠ s.length
        let fps : Nat × Nat × List Char × Bool :=
          match s1 with
          | '.' :: rest =>
            let r := leadingFractionAux 0 1 false rest
            (r.1, r.2.1, r.2.2, decide (r.2.2.length ≠ rest.length))
          | _ => (0, 1, s1, false)
        let f := fps.1
        let scale := fps.2.1
        let s2 := fps.2.2.1
        let post := fps.2.2.2
        if ¬ pre ∧ ¬ post then none
        else
          let unit := s2.takeWhile (fun c => ¬ (c = '.' ∨ c.isDigit))
          if unit = [] then none
          else
            match durUnitNs unit with
            | none => none
            | some u =>
              if v > 2 ^ 63 / u then none
              else
                let v1 := v * u
                let v2 := if f > 0 then v1 + (f * u) / scale else v1
                if f > 0 ∧ v2 > 2 ^ 63 then none
                else
                  let d1 := d + v2
                  if d1 > 2 ^ 63 then none
                  else parseDurationLoop fuel d1 (s2.drop unit.length)

/-- Models Go `time.ParseDuration`: optional sign, the special literal
`"0"`, then one or more number-unit groups; result in nanoseconds. -/
def goParseDuration (str : String) : Option Int :=
  let signed : Bool × List Char :=
    match str.data with
    | '-' :: rest => (true, rest)
    | '+' :: rest => (false, rest)
    | _ => (false, str.data)
  let s := signed.2
  if s = ['0'] then some 0
  else if s = [] then none
  else
    match parseDurationLoop (s.length + 1) 0 s with
    | none => none
    | some d =>
      if signed.1 then some (-(d : Int))
      else if d > 2 ^ 63 - 1 then none
      else some (d : Int)

/-! ### `${NAME}` / `${NAME:-default}` expansion (`internal/expand.go`) -/

/-- An environment lookup, modelling `os.LookupEnv`. -/
def Lookup : Type := List Char → Option (List Char)

/-- One round of the rewrite loop in `expandWithLookup`
(`internal/expand.go`): find the first `${`, the first `}` after it, cut the
inner text at `:-`, and substitute.  `none` means the loop's break
conditions held (no `${`, or no closing `}`). -/
def expandStep (look : Lookup) (s : List Char) : Option (List Char) :=
  match indexOfSubstr s ['$', '{'] with
  | none => none
  | some i =>
    match indexOfSubstr (s.drop i) ['}'] with
    | none => none
    | some j0 =>
      let j := j0 + i
      let inner := (s.take j).drop (i + 2)
      let cut := goCut inner [':', '-']
      let name := cut.1
      let dflt := cut.2.1
      let hasDef := cut.2.2
      some (if name = [] then s.take i ++ s.drop (j + 1)
            else
              match look name with
              | some v => s.take i ++ v ++ s.drop (j + 1)
              | none =>
                if hasDef then s.take i ++ dflt ++ s.drop (j + 1)
                else s.take i ++ s.drop (j + 1))

/-- Model of `expandWithLookup` from `internal/expand.go`.  The Go loop runs until no
`${...}` segment remains and can diverge when a substituted value
reintroduces one; the fuel bounds the number of rounds, and any fuel large
enough to reach a fixed point yields the Go result. -/
def expandWithLookup (look : Lookup) : Nat → List Char → List Char
  | 0, s => s
  | fuel + 1, s =>
    match expandStep look s with
    | none => s
    | some s' => expandWithLookup look fuel s'

/-! ### Go `os.Expand` / `os.ExpandEnv` -/

/-- Go `isShellSpecialVar`. -/
def goIsShellSpecial (c : Char) : Bool :=
  c = '*' || c = '#' || c = '$' || c = '@' || c = '!' || c = '?' ||
  ('0' ≤ c && c ≤ '9')

/-- Go `isAlphaNum` (underscore, digits, ASCII letters). -/
def goIsAlphaNum (c : Char) : Bool :=
  c = '_' || ('0' ≤ c && c ≤ '9') || ('a' ≤ c && c ≤ 'z') ||
  ('A' ≤ c && c ≤ 'Z')

/-- First index of `c` in `l`. -/
def indexOfChar (l : List Char) (c : Char) : Option Nat :=
  match l with
  | [] => none
  | x :: t => if x = c then some 0 else (indexOfChar t c).map (· + 1)

/-- The brace-scanning branch of Go `getShellName`, applied to the text
after the opening `{`: find the first `}`; `${}` is bad syntax eating two
characters, an unterminated `${` eats one. -/
def getShellNameBrace (rest : List Char) : List Char × Nat :=
  match indexOfChar rest '}' with
  | some k => if k = 0 then ([], 2) else (rest.take k, k + 2)
  | none => ([], 1)

/-- Go `getShellName`: the variable name starting at `s` (the text after a
`$`), and how many characters it spans. -/
def getShellName (s : List Char) : List Char × Nat :=
  match s with
  | [] => ([], 0)
  | c :: rest =>
    if c = '{' then
      match rest with
      | c1 :: c2 :: _ =>
        if goIsShellSpecial c1 ∧ c2 = '}' then ([c1], 3)
        else getShellNameBrace rest
      | _ => getShellNameBrace rest
    else if goIsShellSpecial c then ([c], 1)
    else
      let name := (c :: rest).takeWhile goIsAlphaNum
      (name, name.length)

/-- Go `os.Expand(s, mapping)` with fuel as a structural-recursion device:
every round consumes at least one character, so `s.length + 1` rounds
suffice.  A `$` not followed by anything is copied verbatim; bad syntax
after `$` is eaten; otherwise the name is replaced by `mapping name`
without rescanning the replacement. -/
def osExpandAux (mapping : List Char → List Char) :
    Nat → List Char → List Char
  | 0, s => s
  | _ + 1, [] => []
  | fuel + 1, c :: rest =>
    if c = '$' then
      match rest with
      | [] => ['$']
      | _ :: _ =>
        let nw := getShellName rest
        let name := nw.1
        let w := nw.2
        if name = [] ∧ w > 0 then osExpandAux mapping fuel (rest.drop w)
        else if name = [] then '$' :: osExpandAux mapping fuel rest
        else mapping name ++ osExpandAux mapping fuel (rest.drop w)
    else c :: osExpandAux mapping fuel rest

/-- Go `os.Expand`. -/
def osExpand (s : List Char) (mapping : List Char → List Char) : List Char :=
  osExpandAux mapping (s.length + 1) s

/-- Go `os.Getenv` on top of a `Lookup`: empty string when unset. -/
def getenvOf (look : Lookup) : List Char → List Char :=
  fun n => (look n).getD []

/-- Model of `Expand` from `internal/expand.go`: first resolve `${NAME}` /
`${NAME:-def}` with `expandWithLookup` over the environment, then run the
result through `os.ExpandEnv` so remaining `$NAME` and `${NAME}` references
are substituted from the environment. -/
def Expand (look : Lookup) (fuel : Nat) (s : List Char) : List Char :=
  osExpand (expandWithLookup look fuel s) (getenvOf look)

/-! ### Rule validator (`validate` package) -/

/-- A converted field value as the binder stores it, by reflect kind:
string, bool, signed integer of a declared bit width, unsigned integer,
`time.Duration` (nanoseconds), or `[]string`. -/
inductive Value
  | str (s : String)
  | boolV (b : Bool)
  | intV (bits : Nat) (i : Int)
  | uintV (bits : Nat) (u : Nat)
  | durationV (d : Int)
  | strList (l : List String)
deriving DecidableEq, Repr

/-- Structured identity of a validator failure (the Go code returns
formatted error strings; only their identity matters here). -/
inductive RuleErr
  | badBound (text : String)
  | tooSmall (bound : String)
  | tooBig (bound : String)
  | notOneOf (allowed : List String)
  | elemNotAllowed (item : String) (allowed : List String)
  | oneOfBadKind
deriving DecidableEq, Repr

/-- Model of `checkMin` from the `validate` package: `time.Duration` values compare
against the bound parsed as a duration literal; signed/unsigned integers
and string lengths compare against the bound parsed as a base-10 integer.
Kinds outside the switch (bool, float, slices, ...) fall through and
return no error. -/
def checkMin (v : Value) (s : String) : Option RuleErr :=
  match v with
  | .durationV d =>
    match goParseDuration s with
    | none => some (.badBound s)
    | some m => if d < m then some (.tooSmall s) else none
  | .intV _ i =>
    match goParseInt s.data 64 with
    | none => some (.badBound s)
    | some m => if i < m then some (.tooSmall s) else none
  | .uintV _ u =>
    match goParseUint s.data 64 with
    | none => some (.badBound s)
    | some m => if u < m then some (.tooSmall s) else none
  | .str t =>
    match goParseInt s.data 64 with
    | none => some (.badBound s)
    | some m => if (t.length : Int) < m then some (.tooSmall s) else none
  | _ => none

/-- Model of `checkMax` from the `validate` package; mirror image of `checkMin`. -/
def checkMax (v : Value) (s : String) : Option RuleErr :=
  match v with
  | .durationV d =>
    match goParseDuration s with
    | none => some (.badBound s)
    | some m => if d > m then some (.tooBig s) else none
  | .intV _ i =>
    match goParseInt s.data 64 with
    | none => some (.badBound s)
    | some m => if i > m then some (.tooBig s) else none
  | .uintV _ u =>
    match goParseUint s.data 64 with
    | none => some (.badBound s)
    | some m => if u > m then some (.tooBig s) else none
  | .str t =>
    match goParseInt s.data 64 with
    | none => some (.badBound s)
    | some m => if (t.length : Int) > m then some (.tooBig s) else none
  | _ => none

/-- Model of `checkOneOf` from the `validate` package: the allowed set is always
split on `|` (the `sep` argument is ignored for it, as in the source);
strings must equal some alternative, string lists fail at their first
element not in the set, and every other kind is itself a failure. -/
def checkOneOf (v : Value) (vals : String) (_sep : String) : Option RuleErr :=
  let allowed := (goSplit vals.data "|".data).map (fun l => String.mk l)
  match v with
  | .str s =>
    if allowed.contains s then none else some (.notOneOf allowed)
  | .strList l =>
    match l.find? (fun item => ¬ allowed.contains item) with
    | some item => some (.elemNotAllowed item allowed)
    | none => none
  | _ => some .oneOfBadKind

/-- Insert a rule key, overwriting an existing binding (Go map store). -/
def insertRule : List (String × String) → String → String →
    List (String × String)
  | [], k, v => [(k, v)]
  | (k', v') :: rest, k, v =>
    if k' = k then (k, v) :: rest else (k', v') :: insertRule rest k v

/-- Model of `parseRules` from the `validate` package: split the tag on commas, trim
each part, keep only `key=value` parts, trimming key and value.  Go stores
them in a map; the model keeps a deduplicated association list in tag
order. -/
def parseRules (tag : String) : List (String × String) :=
  (goSplit tag.data [',']).foldl
    (fun out part =>
      let part := trimSpace part
      if part = [] then out
      else
        let cut := goCut part ['=']
        if cut.2.2 then
          insertRule out ⟨trimSpace cut.1⟩ ⟨trimSpace cut.2.1⟩
        else out)
    []

/-- The rule-evaluation loop of `ValidateField`.  Go iterates its rules map
in unspecified order and returns the first failing check; the model fixes
tag order, which coincides with Go whenever at most one rule fails. -/
def validateRules (v : Value) (sep : String) :
    List (String × String) → Option RuleErr
  | [] => none
  | (k, val) :: rest =>
    match (if k = "min" then checkMin v val
           else if k = "max" then checkMax v val
           else if k = "oneof" then checkOneOf v val sep
           else none) with
    | some e => some e
    | none => validateRules v sep rest

/-- Model of `ValidateField` from the `validate` package. -/
def ValidateField (v : Value) (tag sep : String) : Option RuleErr :=
  validateRules v sep (parseRules tag)

/-! ### Struct binder (`binders/binders.go`) -/

/-- The process environment as an explicit lookup, modelling
`os.LookupEnv`. -/
def Env : Type := String → Option String

/-- An `Env` viewed as the character-level `Lookup` used by `Expand`. -/
def Env.chars (env : Env) : Lookup :=
  fun n => (env ⟨n⟩).map String.data

/-- Model of `lookupPrefixed` from `binders/binders.go`: with a non-empty prefix,
`prefix + name` wins over `name`. -/
def lookupPrefixed (env : Env) (pfx name : String) : Option String :=
  if pfx ≠ "" then
    match env (pfx ++ name) with
    | some v => some v
    | none => env name
  else env name

/-- Model of `parseEnvTag` from `binders/binders.go`: the key is the text before the
first comma (trimmed); the field is required when any later comma-separated
part trims to `required`. -/
def parseEnvTag (tag : String) : String × Bool :=
  match indexOfSubstr tag.data [','] with
  | none => (⟨trimSpace tag.data⟩, false)
  | some i =>
    let name := tag.data.take i
    let parts := goSplit (tag.data.drop (i + 1)) [',']
    (⟨trimSpace name⟩, parts.any (fun p => trimSpace p = "required".data))

/-- The semantic type of a bound field, by reflect kind.  The model covers
the kinds the claims exercise: string, bool, sized signed integers with the
`time.Duration` special case split out, sized unsigned integers, and
`[]string`.  (JSON-mode, URL and float fields take disjoint branches of
`setField` and do not interact with these.) -/
inductive FieldType
  | strT
  | boolT
  | intT (bits : Nat)
  | uintT (bits : Nat)
  | durationT
  | strListT
deriving DecidableEq, Repr

/-- Identity of a conversion failure (`setField`'s error return). -/
inductive ConvErr
  | invalidBool (raw : String)
  | invalidInt (raw : String)
  | invalidUint (raw : String)
  | invalidDuration (raw : String)
deriving DecidableEq, Repr

/-- Model of `setField` from `binders/binders.go` on the modelled kinds: convert the
raw text and return the value to store; an error leaves the destination
untouched (the caller keeps the old value). -/
def setField (t : FieldType) (raw sep : String) : Except ConvErr Value :=
  match t with
  | .strT => .ok (.str raw)
  | .boolT =>
    match ParseBoolValue raw with
    | some b => .ok (.boolV b)
    | none => .error (.invalidBool raw)
  | .durationT =>
    match goParseDuration raw with
    | some d => .ok (.durationV d)
    | none => .error (.invalidDuration raw)
  | .intT bits =>
    match goParseInt raw.data bits with
    | some i => .ok (.intV bits i)
    | none => .error (.invalidInt raw)
  | .uintT bits =>
    match goParseUint raw.data bits with
    | some u => .ok (.uintV bits u)
    | none => .error (.invalidUint raw)
  | .strListT => .ok (.strList (SplitAndTrim raw sep))

/-- One exported struct field with its tags, as the reflect walk sees it:
the `env` tag (absent ⇒ the field is skipped), the `envdef` and `envsep`
tags (Go `Tag.Get` yields `""` when absent), the `validate` tag, and the
field's kind. -/
structure StructField where
  envTag : Option String
  envdef : String
  envsep : String
  validateTag : Option String
  ftype : FieldType
deriving DecidableEq, Repr

/-- A per-field failure as recorded by `bindWithOptions`: the bare
`KeyError` for a missing required key, or the key-wrapping of a conversion
or validation error. -/
inductive BindErr
  | missing (key : String)
  | convErr (key : String) (e : ConvErr)
  | validErr (key : String) (e : RuleErr)
deriving DecidableEq, Repr

/-- The key named by a failure. -/
def BindErr.key : BindErr → String
  | .missing k => k
  | .convErr k _ => k
  | .validErr k _ => k

/-- The raw-text resolution step of the `bindWithOptions` loop: the
(possibly prefixed) environment lookup, falling back to the declared
default only when that default is non-empty (`def != ""` in the source). -/
def resolveRaw (env : Env) (pfx name dflt : String) : Option String :=
  match lookupPrefixed env pfx name with
  | some v => some v
  | none => if dflt ≠ "" then some dflt else none

/-- The per-field body of the `bindWithOptions` loop: resolve the raw text
(prefixed lookup, then the default when non-empty), record `missing` for an
absent required key, skip an absent optional one, expand, convert, assign,
then validate the converted value.  Returns the field's new value and the
failure recorded for it, if any.  `fuel` feeds `Expand` (see there). -/
def bindField (env : Env) (fuel : Nat) (pfx : String)
    (f : StructField) (cur : Value) : Value × Option BindErr :=
  match f.envTag with
  | none => (cur, none)
  | some ev =>
    let nr := parseEnvTag ev
    let name := nr.1
    let req := nr.2
    let sep := if f.envsep = "" then "," else f.envsep
    match resolveRaw env pfx name f.envdef with
    | none => if req then (cur, some (.missing name)) else (cur, none)
    | some raw0 =>
      let raw : String := ⟨Expand env.chars fuel raw0.data⟩
      match setField f.ftype raw sep with
      | .error e => (cur, some (.convErr name e))
      | .ok v =>
        match f.validateTag with
        | some vtag =>
          if vtag ≠ "" then
            match ValidateField v vtag sep with
            | some e => (v, some (.validErr name e))
            | none => (v, none)
          else (v, none)
        | none => (v, none)

/-- The field walk of `bindWithOptions`, in Go's accumulator style: values
are assigned in place, failures are appended to the running `MultiError`. -/
def bindLoop (env : Env) (fuel : Nat) (pfx : String) :
    List (StructField × Value) → List Value → List BindErr →
    List Value × List BindErr
  | [], accVals, errs => (accVals.reverse, errs)
  | (f, cur) :: rest, accVals, errs =>
    let r := bindField env fuel pfx f cur
    bindLoop env fuel pfx rest (r.1 :: accVals)
      (match r.2 with
       | some e => errs ++ [e]
       | none => errs)

/-- Model of `bindWithOptions` from `binders/binders.go`, for a valid
pointer-to-struct destination: walk every field, returning the final field
values together with the ordered failure list. -/
def bindWithOptions (env : Env) (fuel : Nat) (pfx : String)
    (fields : List (StructField × Value)) : List Value × List BindErr :=
  bindLoop env fuel pfx fields [] []

/-- The error result of `Bind` / `BindWithPrefix`: `none` on success, and
otherwise the whole failure list as one `MultiError` value. -/
def BindResult (env : Env) (fuel : Nat) (pfx : String)
    (fields : List (StructField × Value)) : Option (List BindErr) :=
  let errs := (bindWithOptions env fuel pfx fields).2
  if errs.isEmpty then none else some errs

/-! ### Redacted environment dump (`DumpRedacted`) -/

/-- Whether `pat` occurs as a contiguous substring (Go
`strings.Contains`). -/
def containsSubstr (s pat : List Char) : Bool :=
  (indexOfSubstr s pat).isSome

/-- The redaction test of `DumpRedacted`: the uppercased key contains
`SECRET`, `TOKEN` or `PASSWORD`, or ends with `_KEY`.  Upper-casing is
per-character ASCII, as `strings.ToUpper` acts on these keys. -/
def isRedactedKey (k : String) : Bool :=
  let upper := k.data.map Char.toUpper
  containsSubstr upper "SECRET".data ||
  containsSubstr upper "TOKEN".data ||
  containsSubstr upper "PASSWORD".data ||
  "_KEY".data.isSuffixOf upper

/-- Model of `DumpRedacted` over an explicit `os.Environ()`-style list of `k=v`
entries: cut each entry at its first `=` (skipping malformed ones) and
store the value, or the fixed mask `***` for redacted keys.  Go stores the
pairs in a map; the model keeps the entry order. -/
def DumpRedacted (environ : List String) : List (String × String) :=
  match environ with
  | [] => []
  | kv :: rest =>
    let cut := goCut kv.data ['=']
    if cut.2.2 then
      (⟨cut.1⟩, if isRedactedKey ⟨cut.1⟩ then "***" else (⟨cut.2.1⟩ : String))
        :: DumpRedacted rest
    else DumpRedacted rest

/-! ### Concrete fixtures used by the example instances -/

/-- Environment of the aggregation example: `PORT` absent, `COUNT` out of
`int16` range, `MODE` outside its `oneof` set. -/
def envAgg : Env := fun n =>
  if n = "COUNT" then some "70000"
  else if n = "MODE" then some "d"
  else none

/-- Fixture field `Port int64` with `env:"PORT,required"`. -/
def fPort : StructField := ⟨some "PORT,required", "", "", none, .intT 64⟩

/-- Fixture field `Count int16` with `env:"COUNT"`. -/
def fCount : StructField := ⟨some "COUNT", "", "", none, .intT 16⟩

/-- Fixture field `Mode string` with `env:"MODE" validate:"oneof=a|b|c"`. -/
def fMode : StructField := ⟨some "MODE", "", "", some "oneof=a|b|c", .strT⟩

/-- The three-field destination of the aggregation example. -/
def aggFields : List (StructField × Value) :=
  [(fPort, .intV 64 0), (fCount, .intV 16 0), (fMode, .str "")]

/-- Environment of the smaller binder examples. -/
def envBasic : Env := fun n =>
  if n = "DEBUG" then some "true"
  else if n = "PORT" then some "70000"
  else none

/-- Fixture field `Debug bool` with `env:"DEBUG"`. -/
def fDebug : StructField := ⟨some "DEBUG", "", "", none, .boolT⟩

/-- Fixture field `Debug bool` with `env:"DEBUG" validate:"min=1"` (a `min` rule on a
boolean field). -/
def fFlagMin : StructField := ⟨some "DEBUG", "", "", some "min=1", .boolT⟩

/-- Fixture field `Port int64` with `env:"PORT" validate:"min=1,max=65535"`. -/
def fPortVal : StructField :=
  ⟨some "PORT", "", "", some "min=1,max=65535", .intT 64⟩

/-- Fixture field `Mode string` with `env:"MODE"` and no validation (used as a trailing
optional field). -/
def fModePlain : StructField := ⟨some "MODE", "", "", none, .strT⟩

/-- Lookup of the expansion examples: only `EV_A=1`. -/
def lookEx : Lookup := fun n =>
  if n = "EV_A".data then some "1".data else none

/-- Lookup of the `$NAME`-chaining examples: `B=2` and `A=$B`. -/
def lookChain : Lookup := fun n =>
  if n = "B".data then some "2".data
  else if n = "A".data then some ('$' :: "B".data)
  else none

/-- An `os.Environ()`-style snapshot for the redaction example. -/
def environEx : List String := ["API_SECRET=x", "PATH=/bin", "MY_KEY=z", "MONKEY=e"]

/-! ## Theorems -/

/-! ### General-purpose lemmas -/

/-- The loop of `SplitAndTrim` keeps exactly the per-segment trims that are
non-empty, in order. -/
theorem splitAndTrimLoop_eq_filter (ps : List (List Char)) :
    splitAndTrimLoop ps = (ps.map trimSpace).filter (fun p => p ≠ []) := by
  induction ps with
  | nil => rfl
  | cons p rest ih =>
      by_cases h : trimSpace p = []
      · simp [splitAndTrimLoop, h, List.filter, ih]
      · simp [splitAndTrimLoop, h, List.filter, ih]

/-! ### C6: string-list splitting -/

/-- Claim C6: `SplitAndTrim` trims every segment, drops segments that are
empty after trimming, and preserves the order of the rest (the
filter-of-map characterisation); `" a , , b, c "` and `"a,b,c"` both yield
`["a","b","c"]` for separator `","`; and the empty input yields the empty
list for every separator. -/
theorem splitAndTrim_trims_drops_and_preserves_order :
    (∀ s sep : String,
      SplitAndTrim s sep =
        (((goSplit s.data sep.data).map trimSpace).filter
          (fun p => p ≠ [])).map (fun l => ⟨l⟩)) ∧
    SplitAndTrim " a , , b, c " "," = ["a", "b", "c"] ∧
    SplitAndTrim "a,b,c" "," = ["a", "b", "c"] ∧
    (∀ sep : String, SplitAndTrim "" sep = []) := by
  refine ⟨?_, by decide, by decide, ?_⟩
  · intro s sep
    rw [SplitAndTrim, splitAndTrimLoop_eq_filter]
  · intro sep
    rw [SplitAndTrim]
    cases hsep : sep.data with
    | nil => simp [goSplit, splitAndTrimLoop]
    | cons c t =>
        simp [goSplit, goSplitAux, indexOfSubstr, List.isPrefixOf,
          splitAndTrimLoop, trimSpace]

/-! ### C3: duration bounds in validation rules -/

/-- Claim C3: with rule `min=1s,max=10s` on a duration field, the bounds are
parsed as duration literals (`"1s"` is no integer but is `10⁹` ns as a
duration), and a converted value passes exactly when it lies between 1s and
10s: `"5s"` passes, `"500ms"` fails the min bound, `"11s"` fails the max
bound. -/
theorem duration_rule_bounds_parse_as_durations (d : Int) (sep : String) :
    ValidateField (.durationV d) "min=1s,max=10s" sep =
      (if d < 1000000000 then some (.tooSmall "1s")
       else if d > 10000000000 then some (.tooBig "10s")
       else none) ∧
    goParseInt "1s".data 64 = none ∧
    goParseDuration "1s" = some 1000000000 ∧
    setField .durationT "5s" "," = .ok (.durationV 5000000000) ∧
    ValidateField (.durationV 5000000000) "min=1s,max=10s" "," = none ∧
    setField .durationT "500ms" "," = .ok (.durationV 500000000) ∧
    ValidateField (.durationV 500000000) "min=1s,max=10s" "," =
      some (.tooSmall "1s") ∧
    setField .durationT "11s" "," = .ok (.durationV 11000000000) ∧
    ValidateField (.durationV 11000000000) "min=1s,max=10s" "," =
      some (.tooBig "10s") := by
  refine ⟨?_, by decide, by decide, by rfl, by decide, by rfl,
    by decide, by rfl, by decide⟩
  have hrules : parseRules "min=1s,max=10s" = [("min", "1s"), ("max", "10s")] := by
    decide
  have h1 : goParseDuration "1s" = some 1000000000 := by decide
  have h10 : goParseDuration "10s" = some 10000000000 := by decide
  rw [ValidateField, hrules]
  simp only [validateRules, checkMin, checkMax, h1, h10]
  by_cases hlo : d < 1000000000
  · simp [hlo]
  · by_cases hhi : d > 10000000000
    · simp [hlo, hhi]
    · simp [hlo, hhi]

/-! ### C4: rule keys on incompatible field kinds -/

/-- Claim C4 counterexample: the claim says a `min` rule on a boolean field
is reported as a validator failure; in the code `checkMin` has no `Bool`
case and returns no error, and a whole `Bind` of a boolean field tagged
`validate:"min=1"` succeeds. -/
theorem min_rule_on_bool_is_silently_ignored :
    ValidateField (.boolV true) "min=1" "," = none ∧
    BindResult envBasic 1 "" [(fFlagMin, .boolV false)] = none := by
  decide

/-- Claim C4 amended: `oneof` on a kind other than string and `[]string` is
itself a validator failure, but `min`/`max` on a kind outside the
validator's switch (bool, `[]string`, float, ...) is silently ignored
rather than reported. -/
theorem oneof_fails_min_max_ignored_on_incompatible_kinds
    (b : Bool) (l : List String) (d i : Int) (w u : Nat)
    (s vals sep : String) :
    checkOneOf (.boolV b) vals sep = some .oneOfBadKind ∧
    checkOneOf (.intV w i) vals sep = some .oneOfBadKind ∧
    checkOneOf (.uintV w u) vals sep = some .oneOfBadKind ∧
    checkOneOf (.durationV d) vals sep = some .oneOfBadKind ∧
    ValidateField (.boolV b) "oneof=a|b" sep = some .oneOfBadKind ∧
    checkMin (.boolV b) s = none ∧
    checkMax (.boolV b) s = none ∧
    checkMin (.strList l) s = none ∧
    checkMax (.strList l) s = none := by
  have hrules : parseRules "oneof=a|b" = [("oneof", "a|b")] := by decide
  refine ⟨rfl, rfl, rfl, rfl, ?_, rfl, rfl, rfl, rfl⟩
  rw [ValidateField, hrules]
  simp [validateRules, checkOneOf]

/-! ### The binder field walk -/

/-- The accumulator loop of `bindWithOptions` evaluates every field
independently: the final values are the per-field results in declaration
order, and the failure list is the ordered collection of the per-field
failures. -/
theorem bindLoop_spec (env : Env) (fuel : Nat) (pfx : String)
    (fields : List (StructField × Value)) (accVals : List Value)
    (errs : List BindErr) :
    bindLoop env fuel pfx fields accVals errs =
      (accVals.reverse ++
         fields.map (fun fc => (bindField env fuel pfx fc.1 fc.2).1),
       errs ++
         fields.filterMap (fun fc => (bindField env fuel pfx fc.1 fc.2).2)) := by
  induction fields generalizing accVals errs with
  | nil => simp [bindLoop]
  | cons fc rest ih =>
      obtain ⟨f, cur⟩ := fc
      rw [bindLoop, ih]
      cases h : (bindField env fuel pfx f cur).2 with
      | none => simp [h, List.filterMap_cons]
      | some e => simp [h, List.filterMap_cons]

/-- The walk of `bindWithOptions`, characterised field by field. -/
theorem bindWithOptions_spec (env : Env) (fuel : Nat) (pfx : String)
    (fields : List (StructField × Value)) :
    bindWithOptions env fuel pfx fields =
      (fields.map (fun fc => (bindField env fuel pfx fc.1 fc.2).1),
       fields.filterMap (fun fc => (bindField env fuel pfx fc.1 fc.2).2)) := by
  rw [bindWithOptions, bindLoop_spec]
  simp

/-! ### C1: error aggregation -/

/-- Claim C1: whenever at least one tagged field fails, `Bind` returns one
aggregated `MultiError` — the list of per-field failures, one entry per
failing field in declaration order (the `filterMap` of the independent
per-field outcomes) and never a bare singular error — while every field's
value is still the result of its own independent evaluation, so one field's
failure does not stop the evaluation of subsequent fields. -/
theorem bind_returns_one_aggregated_error (env : Env) (fuel : Nat)
    (pfx : String) (fields : List (StructField × Value))
    (hfail : ∃ fc ∈ fields, (bindField env fuel pfx fc.1 fc.2).2.isSome) :
    BindResult env fuel pfx fields =
      some (fields.filterMap (fun fc => (bindField env fuel pfx fc.1 fc.2).2)) ∧
    (bindWithOptions env fuel pfx fields).1 =
      fields.map (fun fc => (bindField env fuel pfx fc.1 fc.2).1) := by
  have hspec := bindWithOptions_spec env fuel pfx fields
  constructor
  · rw [BindResult, hspec]
    obtain ⟨fc, hmem, hsome⟩ := hfail
    have hne : fields.filterMap
        (fun fc => (bindField env fuel pfx fc.1 fc.2).2) ≠ [] := by
      intro hnil
      rcases Option.isSome_iff_exists.mp hsome with ⟨e, he⟩
      have : e ∈ fields.filterMap
          (fun fc => (bindField env fuel pfx fc.1 fc.2).2) :=
        List.mem_filterMap.mpr ⟨fc, hmem, he⟩
      rw [hnil] at this
      exact absurd this (List.not_mem_nil e)
    simp [hne]
  · rw [hspec]

/-- Claim C1 witness: three simultaneously invalid fields — `PORT` missing
and required, `COUNT=70000` out of `int16` range, `MODE=d` failing
`oneof=a|b|c` — produce one aggregated error with exactly three entries,
each naming its own field key. -/
theorem bind_returns_one_aggregated_error_witness :
    (∃ fc ∈ aggFields, (bindField envAgg 1 "" fc.1 fc.2).2.isSome) ∧
    (BindResult envAgg 1 "" aggFields =
      some (aggFields.filterMap (fun fc => (bindField envAgg 1 "" fc.1 fc.2).2)) ∧
     (bindWithOptions envAgg 1 "" aggFields).1 =
      aggFields.map (fun fc => (bindField envAgg 1 "" fc.1 fc.2).1)) ∧
    aggFields.filterMap (fun fc => (bindField envAgg 1 "" fc.1 fc.2).2) =
      [.missing "PORT", .convErr "COUNT" (.invalidInt "70000"),
       .validErr "MODE" (.notOneOf ["a", "b", "c"])] :=
  ⟨by decide, bind_returns_one_aggregated_error envAgg 1 "" aggFields (by decide),
   by decide⟩

/-! ### C2: missing required fields and skipped optional fields -/

/-- Claim C2: a tagged field with no non-empty default whose key (and
prefixed alias) is absent contributes, when required, exactly one `Missing`
failure for itself while every other field is still evaluated; when not
required it contributes no failure and its destination slot is left
unchanged. -/
theorem bind_missing_required_and_skips_optional (env : Env) (fuel : Nat)
    (pfx : String) (fs1 fs2 : List (StructField × Value))
    (f : StructField) (cur : Value) (ev : String)
    (hev : f.envTag = some ev)
    (habs : lookupPrefixed env pfx (parseEnvTag ev).1 = none)
    (hdef : f.envdef = "") :
    (bindWithOptions env fuel pfx (fs1 ++ (f, cur) :: fs2)).2 =
      (bindWithOptions env fuel pfx fs1).2 ++
      (if (parseEnvTag ev).2 then [BindErr.missing (parseEnvTag ev).1] else []) ++
      (bindWithOptions env fuel pfx fs2).2 ∧
    (bindWithOptions env fuel pfx (fs1 ++ (f, cur) :: fs2)).1 =
      (bindWithOptions env fuel pfx fs1).1 ++ cur ::
      (bindWithOptions env fuel pfx fs2).1 := by
  have hfield : bindField env fuel pfx f cur =
      (cur, if (parseEnvTag ev).2 then some (.missing (parseEnvTag ev).1)
            else none) := by
    rw [bindField]
    rw [hev]
    have hres : resolveRaw env pfx (parseEnvTag ev).1 f.envdef = none := by
      rw [resolveRaw, habs, hdef]
      simp
    simp only [hres]
    by_cases hreq : (parseEnvTag ev).2
    · simp [hreq]
    · simp [hreq]
  rw [bindWithOptions_spec, bindWithOptions_spec, bindWithOptions_spec]
  constructor
  · rw [List.filterMap_append, List.filterMap_cons, hfield]
    by_cases hreq : (parseEnvTag ev).2
    · simp [hreq]
    · simp [hreq]
  · rw [List.map_append, List.map_cons, hfield]

/-- Claim C2 witness: with `PORT` required and absent between two present
fields, the failure list is exactly the one `Missing PORT` entry and both
neighbour fields are still bound. -/
theorem bind_missing_required_and_skips_optional_witness :
    (fPort.envTag = some "PORT,required" ∧
     lookupPrefixed envAgg "" (parseEnvTag "PORT,required").1 = none ∧
     fPort.envdef = "") ∧
    ((bindWithOptions envAgg 1 "" ([(fDebug, .boolV false)] ++
        (fPort, .intV 64 0) :: [(fMode, .str "")])).2 =
      (bindWithOptions envAgg 1 "" [(fDebug, .boolV false)]).2 ++
      (if (parseEnvTag "PORT,required").2
       then [BindErr.missing (parseEnvTag "PORT,required").1] else []) ++
      (bindWithOptions envAgg 1 "" [(fMode, .str "")]).2 ∧
     (bindWithOptions envAgg 1 "" ([(fDebug, .boolV false)] ++
        (fPort, .intV 64 0) :: [(fMode, .str "")])).1 =
      (bindWithOptions envAgg 1 "" [(fDebug, .boolV false)]).1 ++ (.intV 64 0) ::
      (bindWithOptions envAgg 1 "" [(fMode, .str "")]).1) :=
  ⟨⟨by decide, by decide, by decide⟩,
   bind_missing_required_and_skips_optional envAgg 1 ""
     [(fDebug, .boolV false)] [(fMode, .str "")] fPort (.intV 64 0)
     "PORT,required" (by decide) (by decide) (by decide)⟩

/-! ### C5: validation failure does not undo the assigned value -/

/-- Claim C5: when a field's conversion succeeds but its declared validation
rule then fails, the destination keeps the converted value that was
assigned before validation, and the validation failure is recorded for that
field. -/
theorem bind_validation_failure_keeps_value (env : Env) (fuel : Nat)
    (pfx : String) (f : StructField) (cur v : Value)
    (ev raw0 vtag : String) (e : RuleErr)
    (hev : f.envTag = some ev)
    (hres : resolveRaw env pfx (parseEnvTag ev).1 f.envdef = some raw0)
    (hconv : setField f.ftype ⟨Expand env.chars fuel raw0.data⟩
      (if f.envsep = "" then "," else f.envsep) = .ok v)
    (hvtag : f.validateTag = some vtag)
    (hne : vtag ≠ "")
    (hval : ValidateField v vtag
      (if f.envsep = "" then "," else f.envsep) = some e) :
    bindField env fuel pfx f cur =
      (v, some (.validErr (parseEnvTag ev).1 e)) := by
  rw [bindField, hev]
  simp only [hres, hconv, hvtag, hne, hval]
  simp [hne]

/-- Claim C5 witness: `PORT=70000` on an `int64` field with
`validate:"min=1,max=65535"` converts fine, the field keeps `70000`, and
the max-bound violation is recorded. -/
theorem bind_validation_failure_keeps_value_witness :
    (fPortVal.envTag = some "PORT" ∧
     resolveRaw envBasic "" (parseEnvTag "PORT").1 fPortVal.envdef =
       some "70000" ∧
     setField fPortVal.ftype ⟨Expand envBasic.chars 1 "70000".data⟩
       (if fPortVal.envsep = "" then "," else fPortVal.envsep) =
       .ok (.intV 64 70000) ∧
     fPortVal.validateTag = some "min=1,max=65535" ∧
     ValidateField (.intV 64 70000) "min=1,max=65535"
       (if fPortVal.envsep = "" then "," else fPortVal.envsep) =
       some (.tooBig "65535")) ∧
    bindField envBasic 1 "" fPortVal (.intV 64 0) =
      (.intV 64 70000, some (.validErr (parseEnvTag "PORT").1 (.tooBig "65535"))) :=
  ⟨⟨by decide, by decide, by rfl, by decide, by decide⟩,
   bind_validation_failure_keeps_value envBasic 1 "" fPortVal (.intV 64 0)
     (.intV 64 70000) "PORT" "70000" "min=1,max=65535" (.tooBig "65535")
     (by decide) (by decide) (by rfl) (by decide) (by decide) (by decide)⟩

/-! ### C9: an empty declared default is no default -/

/-- Claim C9: with the key absent, a declared default equal to the empty
string resolves to nothing — exactly as if no default were declared (Go's
`Tag.Get` cannot distinguish the two) — so the binder never assigns an
empty-string default: a required field gets a `Missing` failure and an
optional one is left unchanged with no failure. -/
theorem empty_default_behaves_like_no_default (env : Env) (fuel : Nat)
    (pfx : String) (f : StructField) (cur : Value) (ev : String)
    (hev : f.envTag = some ev)
    (habs : lookupPrefixed env pfx (parseEnvTag ev).1 = none)
    (hdef : f.envdef = "") :
    resolveRaw env pfx (parseEnvTag ev).1 f.envdef = none ∧
    bindField env fuel pfx f cur =
      (cur, if (parseEnvTag ev).2
            then some (.missing (parseEnvTag ev).1) else none) := by
  have hres : resolveRaw env pfx (parseEnvTag ev).1 f.envdef = none := by
    rw [resolveRaw, habs, hdef]
    simp
  refine ⟨hres, ?_⟩
  rw [bindField, hev]
  simp only [hres]
  by_cases hreq : (parseEnvTag ev).2
  · simp [hreq]
  · simp [hreq]

/-- Claim C9 witness: a required field with `envdef:""` and an absent key is
reported missing rather than bound to the empty string, and an optional one
is skipped. -/
theorem empty_default_behaves_like_no_default_witness :
    (fPort.envTag = some "PORT,required" ∧
     lookupPrefixed envAgg "" (parseEnvTag "PORT,required").1 = none ∧
     fPort.envdef = "") ∧
    (resolveRaw envAgg "" (parseEnvTag "PORT,required").1 fPort.envdef = none ∧
     bindField envAgg 1 "" fPort (.intV 64 7) =
       (.intV 64 7, if (parseEnvTag "PORT,required").2
                    then some (.missing (parseEnvTag "PORT,required").1)
                    else none)) :=
  ⟨⟨by decide, by decide, by decide⟩,
   empty_default_behaves_like_no_default envAgg 1 "" fPort (.intV 64 7)
     "PORT,required" (by decide) (by decide) (by decide)⟩

/-! ### Substring-index lemmas -/

theorem indexOfSubstr_none_of_head_notMem {c : Char} {pat' l : List Char}
    (h : c ∉ l) : indexOfSubstr l (c :: pat') = none := by
  induction l with
  | nil => rfl
  | cons x t ih =>
      have hcx : c ≠ x := fun he => h (he ▸ List.mem_cons_self x t)
      have hnpre : ¬ (c :: pat').isPrefixOf (x :: t) := by
        simp [List.isPrefixOf, hcx]
      rw [indexOfSubstr, if_neg hnpre, ih (fun hm => h (List.mem_cons_of_mem x hm))]
      rfl

theorem indexOfSubstr_append_some {c : Char} {pat' l r : List Char}
    (h : c ∉ l) (hpre : (c :: pat').isPrefixOf r) :
    indexOfSubstr (l ++ r) (c :: pat') = some l.length := by
  induction l with
  | nil => rw [List.nil_append, indexOfSubstr.eq_def, if_pos hpre]; rfl
  | cons x t ih =>
      have hcx : c ≠ x := fun he => h (he ▸ List.mem_cons_self x t)
      have hnpre : ¬ (c :: pat').isPrefixOf (x :: (t ++ r)) := by
        simp [List.isPrefixOf, hcx]
      rw [List.cons_append, indexOfSubstr, if_neg hnpre,
        ih (fun hm => h (List.mem_cons_of_mem x hm))]
      rfl

theorem indexOfSubstr_append_none {c : Char} {pat' l r : List Char}
    (h : c ∉ l) (hr : indexOfSubstr r (c :: pat') = none) :
    indexOfSubstr (l ++ r) (c :: pat') = none := by
  induction l with
  | nil => simpa using hr
  | cons x t ih =>
      have hcx : c ≠ x := fun he => h (he ▸ List.mem_cons_self x t)
      have hnpre : ¬ (c :: pat').isPrefixOf (x :: (t ++ r)) := by
        simp [List.isPrefixOf, hcx]
      rw [List.cons_append, indexOfSubstr, if_neg hnpre,
        ih (fun hm => h (List.mem_cons_of_mem x hm))]
      rfl

/-- Alphanumeric characters (Go `isAlphaNum`) are none of the
metacharacters of the expansion syntax. -/
theorem goIsAlphaNum_not_meta {c : Char} (h : goIsAlphaNum c = true) :
    c ≠ '$' ∧ c ≠ '{' ∧ c ≠ '}' ∧ c ≠ ':' ∧ c ≠ '-' ∧ c ≠ '=' := by
  refine ⟨?_, ?_, ?_, ?_, ?_, ?_⟩ <;> rintro rfl <;> exact absurd h (by decide)

/-! ### Expansion-loop lemmas -/

/-- When no rewrite applies, the loop returns its input at any fuel. -/
theorem expandWithLookup_of_step_none {look : Lookup} {s : List Char}
    (h : expandStep look s = none) (fuel : Nat) :
    expandWithLookup look fuel s = s := by
  cases fuel with
  | zero => rfl
  | succ n => rw [expandWithLookup, h]

/-- One rewrite round. -/
theorem expandWithLookup_step {look : Lookup} {s s' : List Char}
    (h : expandStep look s = some s') (fuel : Nat) :
    expandWithLookup look (fuel + 1) s = expandWithLookup look fuel s' := by
  rw [expandWithLookup, h]

/-- A dollar-free string contains no `${` and is left alone by the
rewrite loop. -/
theorem expandStep_none_of_no_dollar {look : Lookup} {s : List Char}
    (h : ∀ c ∈ s, c ≠ '$') : expandStep look s = none := by
  have : indexOfSubstr s ['$', '{'] = none :=
    indexOfSubstr_none_of_head_notMem (fun hm => (h '$' hm) rfl)
  rw [expandStep, this]

/-- A `goCut` at a `:-` that is not present. -/
theorem goCut_no_colon {name : List Char} (h : ':' ∉ name) :
    goCut name [':', '-'] = (name, [], false) := by
  rw [goCut, indexOfSubstr_none_of_head_notMem h]

/-- A `goCut` at the first `:-`, sitting right after a colon-free name. -/
theorem goCut_name_default {name dflt : List Char} (h : ':' ∉ name) :
    goCut (name ++ ':' :: '-' :: dflt) [':', '-'] = (name, dflt, true) := by
  rw [goCut, indexOfSubstr_append_some h (by simp [List.isPrefixOf])]
  have hdrop : (name ++ ':' :: '-' :: dflt).drop (name.length + 2) = dflt := by
    have h2 := @List.drop_append Char name (':' :: '-' :: dflt) 2
    simpa using h2
  simp [List.take_left, hdrop]

/-- The single rewrite of a whole-string `${inner}` segment, for any inner
text free of `}`: the loop consumes the entire segment and produces the
lookup/default/empty result dictated by the `:-` cut of the inner text. -/
theorem expandStep_whole {look : Lookup} {inner : List Char}
    (hinner : '}' ∉ inner) :
    expandStep look ('$' :: '{' :: (inner ++ ['}'])) =
      some (let cut := goCut inner [':', '-']
            if cut.1 = [] then []
            else
              match look cut.1 with
              | some v => v
              | none => if cut.2.2 then cut.2.1 else []) := by
  have hbrace : '}' ∉ ('$' :: '{' :: inner) := by
    intro hm
    simp only [List.mem_cons] at hm
    rcases hm with h | h | hm
    · exact absurd h (by decide)
    · exact absurd h (by decide)
    · exact hinner hm
  have hidx1 : indexOfSubstr ('$' :: '{' :: (inner ++ ['}'])) ['$', '{'] =
      some 0 := by
    rw [indexOfSubstr, if_pos]
    simp [List.isPrefixOf]
  have hidx2 : indexOfSubstr ('$' :: '{' :: (inner ++ ['}'])) ['}'] =
      some (inner.length + 1 + 1) := by
    have h := @indexOfSubstr_append_some '}' [] ('$' :: '{' :: inner)
      ['}'] hbrace (by simp [List.isPrefixOf])
    simpa using h
  have htake : ('$' :: '{' :: (inner ++ ['}'])).take (inner.length + 1 + 1) =
      '$' :: '{' :: inner := by
    have h := List.take_left ('$' :: '{' :: inner) ['}']
    simpa using h
  have hdrop : ('$' :: '{' :: (inner ++ ['}'])).drop
      (inner.length + 1 + 1 + 1) = [] := by
    have h := @List.drop_append Char ('$' :: '{' :: inner) ['}'] 1
    simpa using h
  simp only [expandStep, hidx1, List.drop_zero, hidx2, Nat.add_zero,
    Nat.zero_add, htake, hdrop, List.drop_succ_cons,
    List.take_zero, List.nil_append, List.append_nil]

/-! ### `os.Expand` lemmas -/

theorem osExpandAux_nil (m : List Char → List Char) (fuel : Nat) :
    osExpandAux m fuel [] = [] := by
  cases fuel <;> rfl

/-- A dollar-free string passes through `os.Expand` unchanged. -/
theorem osExpandAux_no_dollar (m : List Char → List Char) :
    ∀ (s : List Char) (fuel : Nat), (∀ c ∈ s, c ≠ '$') →
      osExpandAux m fuel s = s := by
  intro s
  induction s with
  | nil => intro fuel _; exact osExpandAux_nil m fuel
  | cons c rest ih =>
      intro fuel h
      cases fuel with
      | zero => rfl
      | succ n =>
          have hc : c ≠ '$' := h c (List.mem_cons_self c rest)
          rw [osExpandAux.eq_def]
          simp only [if_neg hc]
          rw [ih n (fun x hx => h x (List.mem_cons_of_mem c hx))]

/-- Go `os.Expand` copies a dollar-free prefix verbatim. -/
theorem osExpandAux_append_no_dollar (m : List Char → List Char)
    (u t : List Char) (fuel : Nat) (hu : ∀ c ∈ u, c ≠ '$') :
    osExpandAux m (u.length + fuel) (u ++ t) = u ++ osExpandAux m fuel t := by
  induction u with
  | nil => simp
  | cons c u' ih =>
      have hc : c ≠ '$' := hu c (List.mem_cons_self c u')
      have hlen : (c :: u').length + fuel = (u'.length + fuel) + 1 := by
        simp [Nat.succ_add]
      rw [hlen, List.cons_append, osExpandAux.eq_def]
      simp only [if_neg hc]
      rw [ih (fun x hx => hu x (List.mem_cons_of_mem c hx)), List.cons_append]

/-- On a non-empty all-alphanumeric name whose first character is not a
shell special variable, `getShellName` takes the whole name. -/
theorem getShellName_all_alphanum {nm : List Char} (hne : nm ≠ [])
    (halpha : ∀ c ∈ nm, goIsAlphaNum c)
    (hhead : ∀ c ∈ nm.take 1, goIsShellSpecial c = false) :
    getShellName nm = (nm, nm.length) := by
  cases nm with
  | nil => exact absurd rfl hne
  | cons c t =>
      have hc : goIsAlphaNum c := halpha c (List.mem_cons_self c t)
      have hcb : c ≠ '{' := by
        intro he
        exact absurd (he ▸ hc) (by decide)
      have hcs : goIsShellSpecial c = false := hhead c (by simp)
      have htw : (c :: t).takeWhile goIsAlphaNum = c :: t :=
        List.takeWhile_eq_self_iff.mpr halpha
      rw [getShellName.eq_def]
      simp [hcb, hcs, htw]

/-- Go `os.Expand` replaces `$name` at the end of the text by the mapping of
the whole name. -/
theorem osExpandAux_dollar_name (m : List Char → List Char)
    {nm : List Char} (hne : nm ≠ [])
    (halpha : ∀ c ∈ nm, goIsAlphaNum c)
    (hhead : ∀ c ∈ nm.take 1, goIsShellSpecial c = false) (fuel : Nat) :
    osExpandAux m (fuel + 1) ('$' :: nm) = m nm := by
  cases nm with
  | nil => exact absurd rfl hne
  | cons c t =>
      have hgs := getShellName_all_alphanum hne halpha hhead
      rw [osExpandAux.eq_def]
      simp [hgs, hne, List.drop_length, osExpandAux_nil]

/-! ### C7: `${NAME}` and `${NAME:-default}` expansion -/

/-- Claim C7: expanding a braced reference against an environment lookup:
when `name` is bound, `${name}` expands to its value; when it is unbound
with no default, to the empty string; when it is unbound with a `:-`
default, to the default text. -/
theorem expand_resolves_braced_references (look : Lookup) (fuel : Nat)
    (name v dflt : List Char)
    (hfuel : 1 ≤ fuel) (hne : name ≠ [])
    (hname : ∀ c ∈ name, goIsAlphaNum c)
    (hv : ∀ c ∈ v, c ≠ '$')
    (hdflt : ∀ c ∈ dflt, c ≠ '$' ∧ c ≠ '}') :
    (look name = some v →
      Expand look fuel ('$' :: '{' :: (name ++ ['}'])) = v) ∧
    (look name = none →
      Expand look fuel ('$' :: '{' :: (name ++ ['}'])) = []) ∧
    (look name = none →
      Expand look fuel
        ('$' :: '{' :: (name ++ ':' :: '-' :: dflt ++ ['}'])) = dflt) := by
  obtain ⟨k, rfl⟩ : ∃ k, fuel = k + 1 := by
    cases fuel with
    | zero => omega
    | succ k => exact ⟨k, rfl⟩
  have hnobrace : '}' ∉ name := fun hm =>
    absurd (hname _ hm) (by decide)
  have hnocolon : ':' ∉ name := fun hm =>
    absurd (hname _ hm) (by decide)
  have hcut : goCut name [':', '-'] = (name, [], false) :=
    goCut_no_colon hnocolon
  refine ⟨?_, ?_, ?_⟩
  · intro hlk
    have hstep : expandStep look ('$' :: '{' :: (name ++ ['}'])) = some v := by
      rw [expandStep_whole hnobrace]
      simp [hcut, hne, hlk]
    rw [Expand, expandWithLookup_step hstep,
      expandWithLookup_of_step_none (expandStep_none_of_no_dollar hv),
      osExpand, osExpandAux_no_dollar _ _ _ hv]
  · intro hlk
    have hstep : expandStep look ('$' :: '{' :: (name ++ ['}'])) = some [] := by
      rw [expandStep_whole hnobrace]
      simp [hcut, hne, hlk]
    rw [Expand, expandWithLookup_step hstep,
      expandWithLookup_of_step_none (expandStep_none_of_no_dollar (by simp)),
      osExpand, osExpandAux_nil]
  · intro hlk
    have hshape : name ++ ':' :: '-' :: dflt ++ ['}'] =
        (name ++ ':' :: '-' :: dflt) ++ ['}'] := by simp
    have hnobrace2 : '}' ∉ name ++ ':' :: '-' :: dflt := by
      intro hm
      rcases List.mem_append.mp hm with hm | hm
      · exact hnobrace hm
      · simp only [List.mem_cons] at hm
        rcases hm with h | h | hm
        · exact absurd h (by decide)
        · exact absurd h (by decide)
        · exact ((hdflt _ hm).2 rfl)
    have hcut2 : goCut (name ++ ':' :: '-' :: dflt) [':', '-'] =
        (name, dflt, true) := goCut_name_default hnocolon
    have hstep : expandStep look
        ('$' :: '{' :: (name ++ ':' :: '-' :: dflt ++ ['}'])) = some dflt := by
      rw [hshape, expandStep_whole hnobrace2]
      simp [hcut2, hne, hlk]
    have hdnd : ∀ c ∈ dflt, c ≠ '$' := fun c hc => (hdflt c hc).1
    rw [Expand, expandWithLookup_step hstep,
      expandWithLookup_of_step_none (expandStep_none_of_no_dollar hdnd),
      osExpand, osExpandAux_no_dollar _ _ _ hdnd]

/-- Claim C7 witness: with `EV_A=1` and `EV_X` unset, `"${EV_A}"` expands to
`"1"`, `"${EV_X}"` to `""`, and `"${EV_X:-def}"` to `"def"`. -/
theorem expand_resolves_braced_references_witness :
    ((1 : Nat) ≤ 1 ∧ "EV_A".data ≠ [] ∧
     (∀ c ∈ "EV_A".data, goIsAlphaNum c) ∧
     (∀ c ∈ "1".data, c ≠ '$') ∧
     (∀ c ∈ "def".data, c ≠ '$' ∧ c ≠ '}') ∧
     '$' :: '{' :: ("EV_A".data ++ ['}']) = "${EV_A}".data ∧
     lookEx "EV_A".data = some "1".data) ∧
    ((lookEx "EV_A".data = some "1".data →
      Expand lookEx 1 ('$' :: '{' :: ("EV_A".data ++ ['}'])) = "1".data) ∧
     (lookEx "EV_A".data = none →
      Expand lookEx 1 ('$' :: '{' :: ("EV_A".data ++ ['}'])) = []) ∧
     (lookEx "EV_A".data = none →
      Expand lookEx 1
        ('$' :: '{' :: ("EV_A".data ++ ':' :: '-' :: "def".data ++ ['}'])) =
        "def".data)) ∧
    ((lookEx "EV_X".data = none →
      Expand lookEx 1 ('$' :: '{' :: ("EV_X".data ++ ['}'])) = []) ∧
     (lookEx "EV_X".data = none →
      Expand lookEx 1
        ('$' :: '{' :: ("EV_X".data ++ ':' :: '-' :: "def".data ++ ['}'])) =
        "def".data)) :=
  ⟨by decide,
   expand_resolves_braced_references lookEx 1 "EV_A".data "1".data "def".data
     (by decide) (by decide) (by decide) (by decide) (by decide),
   ⟨(expand_resolves_braced_references lookEx 1 "EV_X".data "1".data
       "def".data (by decide) (by decide) (by decide) (by decide)
       (by decide)).2.1,
    (expand_resolves_braced_references lookEx 1 "EV_X".data "1".data
       "def".data (by decide) (by decide) (by decide) (by decide)
       (by decide)).2.2⟩⟩

/-- The `${...}` rewrite loop leaves text alone whose only dollar starts a
bare `$name` reference (no brace after it). -/
theorem expandStep_none_bare_dollar {look : Lookup} {u nm : List Char}
    (hu : ∀ c ∈ u, c ≠ '$') (hne : nm ≠ [])
    (hnm : ∀ c ∈ nm, goIsAlphaNum c) :
    expandStep look (u ++ '$' :: nm) = none := by
  have hdnm : '$' ∉ nm := fun hm => absurd (hnm _ hm) (by decide)
  have hr : indexOfSubstr ('$' :: nm) ['$', '{'] = none := by
    have hpre : ¬ ['$', '{'].isPrefixOf ('$' :: nm) := by
      cases nm with
      | nil => simp [List.isPrefixOf]
      | cons c t =>
          have hcb : c ≠ '{' := by
            intro he
            exact absurd (he ▸ hnm c (List.mem_cons_self c t)) (by decide)
          simp [List.isPrefixOf, Ne.symm hcb]
    rw [indexOfSubstr.eq_def]
    simp [hpre, indexOfSubstr_none_of_head_notMem hdnm]
  have hall := @indexOfSubstr_append_none '$' ['{'] u ('$' :: nm)
    (fun hm => (hu _ hm) rfl) hr
  rw [expandStep, hall]

/-- Go `os.Expand` of a dollar-free text followed by `$name`. -/
theorem osExpand_prefix_dollar_name (m : List Char → List Char)
    {u nm : List Char} (hu : ∀ c ∈ u, c ≠ '$') (hne : nm ≠ [])
    (halpha : ∀ c ∈ nm, goIsAlphaNum c)
    (hhead : ∀ c ∈ nm.take 1, goIsShellSpecial c = false) :
    osExpand (u ++ '$' :: nm) m = u ++ m nm := by
  rw [osExpand]
  have hlen : (u ++ '$' :: nm).length + 1 = u.length + (nm.length + 1 + 1) := by
    simp only [List.length_append, List.length_cons]
    omega
  rw [hlen, osExpandAux_append_no_dollar m u ('$' :: nm) (nm.length + 1 + 1) hu,
    osExpandAux_dollar_name m hne halpha hhead (nm.length + 1)]

/-! ### C10: the plain-environment pass after `${...}` resolution -/

/-- Claim C10: after the `${NAME}` / `${NAME:-default}` loop, `Expand` runs
the intermediate result through plain environment expansion, so a bare
`$nm` — appearing in the original text, introduced by a substituted value,
or introduced by a default — is replaced by the environment value of `nm`
(the empty string when `nm` is unset). -/
theorem expand_applies_plain_pass_to_bare_names (look : Lookup) (fuel : Nat)
    (u nm a : List Char)
    (hfuel : 1 ≤ fuel)
    (hu : ∀ c ∈ u, c ≠ '$')
    (hnmne : nm ≠ [])
    (hnm : ∀ c ∈ nm, goIsAlphaNum c)
    (hnmhead : ∀ c ∈ nm.take 1, goIsShellSpecial c = false)
    (hane : a ≠ [])
    (ha : ∀ c ∈ a, goIsAlphaNum c) :
    Expand look fuel (u ++ '$' :: nm) = u ++ getenvOf look nm ∧
    (look a = some ('$' :: nm) →
      Expand look fuel ('$' :: '{' :: (a ++ ['}'])) = getenvOf look nm) ∧
    (look a = none →
      Expand look fuel
        ('$' :: '{' :: (a ++ ':' :: '-' :: '$' :: nm ++ ['}'])) =
        getenvOf look nm) ∧
    (look nm = none → getenvOf look nm = []) := by
  obtain ⟨k, rfl⟩ : ∃ k, fuel = k + 1 := by
    cases fuel with
    | zero => omega
    | succ k => exact ⟨k, rfl⟩
  have h0 := @expandStep_none_bare_dollar look ([] : List Char) nm
    (by simp) hnmne hnm
  rw [List.nil_append] at h0
  have hosx : osExpand ('$' :: nm) (getenvOf look) = getenvOf look nm := by
    have h := @osExpand_prefix_dollar_name (getenvOf look)
      ([] : List Char) nm (by simp) hnmne hnm hnmhead
    simpa using h
  have hnobrace : '}' ∉ a := fun hm => absurd (ha _ hm) (by decide)
  have hnocolon : ':' ∉ a := fun hm => absurd (ha _ hm) (by decide)
  refine ⟨?_, ?_, ?_, ?_⟩
  · rw [Expand,
      expandWithLookup_of_step_none (expandStep_none_bare_dollar hu hnmne hnm)]
    exact osExpand_prefix_dollar_name (getenvOf look) hu hnmne hnm hnmhead
  · intro hlk
    have hstep : expandStep look ('$' :: '{' :: (a ++ ['}'])) =
        some ('$' :: nm) := by
      rw [expandStep_whole hnobrace]
      simp [goCut_no_colon hnocolon, hane, hlk]
    rw [Expand, expandWithLookup_step hstep,
      expandWithLookup_of_step_none h0]
    exact hosx
  · intro hlk
    have hshape : a ++ ':' :: '-' :: '$' :: nm ++ ['}'] =
        (a ++ ':' :: '-' :: '$' :: nm) ++ ['}'] := by simp
    have hnobrace2 : '}' ∉ a ++ ':' :: '-' :: '$' :: nm := by
      intro hm
      rcases List.mem_append.mp hm with hm | hm
      · exact hnobrace hm
      · simp only [List.mem_cons] at hm
        rcases hm with h | h | h | hm
        · exact absurd h (by decide)
        · exact absurd h (by decide)
        · exact absurd h (by decide)
        · exact absurd (hnm _ hm) (by decide)
    have hstep : expandStep look
        ('$' :: '{' :: (a ++ ':' :: '-' :: '$' :: nm ++ ['}'])) =
        some ('$' :: nm) := by
      rw [hshape, expandStep_whole hnobrace2]
      simp [goCut_name_default hnocolon, hane, hlk]
    rw [Expand, expandWithLookup_step hstep,
      expandWithLookup_of_step_none h0]
    exact hosx
  · intro h
    simp [getenvOf, h]

/-- Claim C10 witness: with `B=2`, `A=$B` and `Q` unset, `"$B"` expands to
`"2"`, `"${A}"` expands to `"2"` (the `$B` came from `A`'s value),
`"${Q:-$B}"` expands to `"2"` (the `$B` came from the default), and a bare
`"$Q"` expands to the empty string. -/
theorem expand_applies_plain_pass_to_bare_names_witness :
    ((1 : Nat) ≤ 1 ∧ "B".data ≠ [] ∧ (∀ c ∈ "B".data, goIsAlphaNum c) ∧
     "A".data ≠ [] ∧ (∀ c ∈ "A".data, goIsAlphaNum c) ∧
     lookChain "A".data = some ('$' :: "B".data) ∧
     getenvOf lookChain "B".data = "2".data) ∧
    (Expand lookChain 1 ([] ++ '$' :: "B".data) = [] ++ getenvOf lookChain "B".data ∧
     (lookChain "A".data = some ('$' :: "B".data) →
      Expand lookChain 1 ('$' :: '{' :: ("A".data ++ ['}'])) =
        getenvOf lookChain "B".data) ∧
     (lookChain "A".data = none →
      Expand lookChain 1
        ('$' :: '{' :: ("A".data ++ ':' :: '-' :: '$' :: "B".data ++ ['}'])) =
        getenvOf lookChain "B".data) ∧
     (lookChain "B".data = none → getenvOf lookChain "B".data = [])) ∧
    (Expand lookChain 1 ([] ++ '$' :: "Q".data) = [] ++ getenvOf lookChain "Q".data ∧
     (lookChain "A".data = none →
      Expand lookChain 1
        ('$' :: '{' :: ("A".data ++ ':' :: '-' :: '$' :: "Q".data ++ ['}'])) =
        getenvOf lookChain "Q".data) ∧
     getenvOf lookChain "Q".data = []) :=
  ⟨by decide,
   expand_applies_plain_pass_to_bare_names lookChain 1 [] "B".data "A".data
     (by decide) (by decide) (by decide) (by decide) (by decide) (by decide)
     (by decide),
   ⟨(expand_applies_plain_pass_to_bare_names lookChain 1 [] "Q".data "A".data
       (by decide) (by decide) (by decide) (by decide) (by decide)
       (by decide) (by decide)).1,
    (expand_applies_plain_pass_to_bare_names lookChain 1 [] "Q".data "A".data
       (by decide) (by decide) (by decide) (by decide) (by decide)
       (by decide) (by decide)).2.2.1,
    by decide⟩⟩

/-! ### C8: the redacted environment dump -/

/-- Parsing a well-formed `k=v` entry recovers key and value. -/
theorem goCut_env_entry (k v : String) (hk : '=' ∉ k.data) :
    goCut (k ++ "=" ++ v).data ['='] = (k.data, v.data, true) := by
  have hdata : (k ++ "=" ++ v).data = k.data ++ '=' :: v.data := by
    rw [String.data_append, String.data_append]
    simp
  rw [hdata, goCut,
    indexOfSubstr_append_some hk (by simp [List.isPrefixOf])]
  have hdrop : (k.data ++ '=' :: v.data).drop (k.length + 1) = v.data := by
    have h := @List.drop_append Char k.data ('=' :: v.data) 1
    simpa using h
  simp [List.take_left, hdrop]

/-- Claim C8: every well-formed environment entry `k=v` appears in
`DumpRedacted`'s result, with the value replaced by the fixed mask `***`
exactly when the uppercased key contains `SECRET`, `TOKEN` or `PASSWORD` or
ends in `_KEY`, and kept verbatim otherwise; concretely, of
`API_SECRET=x`, `PATH=/bin`, `MY_KEY=z`, `MONKEY=e` only the first and
third are masked. -/
theorem dumpRedacted_masks_secretlike_keys (environ : List String)
    (k v : String) (hk : '=' ∉ k.data)
    (hmem : (k ++ "=" ++ v) ∈ environ) :
    (k, if isRedactedKey k then "***" else v) ∈ DumpRedacted environ ∧
    DumpRedacted environEx =
      [("API_SECRET", "***"), ("PATH", "/bin"), ("MY_KEY", "***"),
       ("MONKEY", "e")] := by
  refine ⟨?_, by decide⟩
  induction environ with
  | nil => cases hmem
  | cons kv rest ih =>
      rcases List.mem_cons.mp hmem with heq | hmem'
      · rw [DumpRedacted, ← heq, goCut_env_entry k v hk]
        exact List.mem_cons_self _ _
      · rw [DumpRedacted]
        cases hfound : (goCut kv.data ['=']).2.2 with
        | false => simpa [hfound] using ih hmem'
        | true =>
            have hin := ih hmem'
            simp only [hfound, if_true]
            exact List.mem_cons_of_mem _ hin

/-- Claim C8 witness: in the sample environment, `PATH=/bin` survives
verbatim while `API_SECRET=x` is masked. -/
theorem dumpRedacted_masks_secretlike_keys_witness :
    ('=' ∉ "PATH".data ∧ ("PATH" ++ "=" ++ "/bin") ∈ environEx ∧
     '=' ∉ "API_SECRET".data ∧ ("API_SECRET" ++ "=" ++ "x") ∈ environEx) ∧
    (("PATH", if isRedactedKey "PATH" then "***" else "/bin") ∈
        DumpRedacted environEx ∧
     DumpRedacted environEx =
       [("API_SECRET", "***"), ("PATH", "/bin"), ("MY_KEY", "***"),
        ("MONKEY", "e")]) ∧
    (("API_SECRET", if isRedactedKey "API_SECRET" then "***" else "x") ∈
        DumpRedacted environEx ∧
     DumpRedacted environEx =
       [("API_SECRET", "***"), ("PATH", "/bin"), ("MY_KEY", "***"),
        ("MONKEY", "e")]) :=
  ⟨by decide,
   dumpRedacted_masks_secretlike_keys environEx "PATH" "/bin"
     (by decide) (by decide),
   dumpRedacted_masks_secretlike_keys environEx "API_SECRET" "x"
     (by decide) (by decide)⟩

end Envvar
